import Mathlib

/-!
Verification of the Pinokio backup tool's change-detection and backup/restore
engine (`app.py`).  The Python functions `ignored`, `backup_engine` and
`restore_backup` are embedded shallowly: paths are lists of segments, the
fingerprint store and the destination filesystem are association lists, the
streaming `hashlib.sha256` hex digest is an explicit function parameter
(a function of the file's byte content), and fallible file reads return
`Option` so that a failing read makes the surrounding operation return
`Except.error`.
-/

set_option autoImplicit false

namespace PinokioBackup

/-- Bytes of a file, abstractly. -/
abbrev Content := List Nat

/-- An absolute path, as its list of segments (models `str(Path(p))` /
`str(p.resolve())`; the paths handed to the engine are taken as already
absolute and resolved). -/
abbrev Key := List String

/-- The persisted fingerprint store `backup_state.json`: absolute source
path to hex digest. -/
abbrev State := List (Key × String)

/-- The destination filesystem as a map from absolute path to file content.
Directories are not tracked: `mkdir` calls have no effect in the model. -/
abbrev DestFS := List (Key × Content)

/-- First-match association lookup (Python dict lookup / file lookup). -/
def alookup {α : Type} (k : Key) : List (Key × α) → Option α
  | [] => none
  | (k', v) :: rest => if k' = k then some v else alookup k rest

/-- `m[k] = v` for a dict modelled as an association list: the new binding
shadows older ones. -/
def ainsert {α : Type} (m : List (Key × α)) (k : Key) (v : α) : List (Key × α) :=
  (k, v) :: m

/-! ### `fnmatch` glob matching (used by `ignored`) -/

/-- Membership of a character in the body of a glob character class, with
`a-b` ranges (mirroring the regex that `fnmatch.translate` emits for
`[...]`; a reversed range matches nothing, a trailing `-` is literal). -/
def classMatch : List Char → Char → Bool
  | a :: '-' :: b :: rest, c => (decide (a ≤ c) && decide (c ≤ b)) || classMatch rest c
  | a :: rest, c => (a == c) || classMatch rest c
  | [], _ => false

/-- Scan for the bracket closing a character class; `none` when the class is
unterminated. -/
def scanClass (acc : List Char) : List Char → Option (List Char × List Char)
  | [] => none
  | ']' :: rest => some (acc.reverse, rest)
  | c :: rest => scanClass (c :: acc) rest

/-- Parse the text following an opening `[`: negation flag, class body and
remaining pattern.  As in `fnmatch`, a `]` directly after `[` or `[!` is
part of the class, and an unterminated class yields `none`. -/
def parseClass (cs : List Char) : Option (Bool × List Char × List Char) :=
  match cs with
  | '!' :: t =>
      (match t with
       | ']' :: t2 => (scanClass [']'] t2).map (fun r => (true, r.1, r.2))
       | _ => (scanClass [] t).map (fun r => (true, r.1, r.2)))
  | ']' :: t => (scanClass [']'] t).map (fun r => (false, r.1, r.2))
  | _ => (scanClass [] cs).map (fun r => (false, r.1, r.2))

/-- Fuelled worker for shell-glob matching, `fnmatch` semantics: `*` matches
any run, `?` one character, `[...]` a class (`!` negates), and an
unterminated `[` is a literal character.  Every recursive call strictly
decreases `pattern.length + s.length`, so fuel `pattern.length + s.length + 1`
can never run out and the `0` case is unreachable from `globMatch`. -/
def globMatchF : Nat → List Char → List Char → Bool
  | 0, _, _ => false
  | fuel + 1, pattern, s =>
    match pattern, s with
    | [], [] => true
    | [], _ :: _ => false
    | '*' :: ps, s =>
        globMatchF fuel ps s ||
          (match s with
           | [] => false
           | _ :: t => globMatchF fuel ('*' :: ps) t)
    | '?' :: ps, s =>
        (match s with
         | [] => false
         | _ :: t => globMatchF fuel ps t)
    | '[' :: ps, s =>
        (match parseClass ps with
         | none =>
             match s with
             | c :: t => (c == '[') && globMatchF fuel ps t
             | [] => false
         | some (neg, body, rest) =>
             match s with
             | c :: t => (classMatch body c != neg) && globMatchF fuel rest t
             | [] => false)
    | p :: ps, s =>
        (match s with
         | c :: t => (p == c) && globMatchF fuel ps t
         | [] => false)

/-- Shell-glob matching of a pattern against a name. -/
def globMatch (p s : List Char) : Bool :=
  globMatchF (p.length + s.length + 1) p s

/-- `fnmatch.fnmatch(name, pat)` (POSIX case handling: no folding). -/
def fnmatchB (name pat : String) : Bool := globMatch pat.data name.data

/-- `ignored(path, patterns)` from `app.py`: does the path's final name
match any pattern. -/
def ignored (name : String) (patterns : List String) : Bool :=
  patterns.any (fun p => fnmatchB name p)

/-! ### Source trees and `os.walk` -/

mutual
/-- A node of a source tree: a file with the bytes a read would return
(`none` when opening or reading it raises an I/O error, such as a vanished
or locked file), or a directory with its children. -/
inductive FsNode where
  | file (name : String) (read : Option Content)
  | dir (name : String) (children : FsTree)

/-- A directory listing, in `os.scandir` order. -/
inductive FsTree where
  | nil
  | cons (hd : FsNode) (tl : FsTree)
end

/-- The files of one directory listing, in order (`os.walk`'s `files`
component), each tagged with the directory's path relative to the walk
root. -/
def filesOfT (relDir : List String) :
    FsTree → List (List String × String × Option Content)
  | .nil => []
  | .cons (.file n r) tl => (relDir, n, r) :: filesOfT relDir tl
  | .cons (.dir _ _) tl => filesOfT relDir tl

mutual
/-- One step of the `os.walk` descent: a file contributes nothing here (it
was already listed by `filesOfT` at its own directory), and a directory is
either pruned — `dirs[:] = [d for d in dirs if not ignored(Path(d), ignore)]`
— or walked: its own files first, then its subdirectories. -/
def walkNode (ign : List String) (relDir : List String) :
    FsNode → List (List String × String × Option Content)
  | .file _ _ => []
  | .dir n cs =>
      if ignored n ign then []
      else filesOfT (relDir ++ [n]) cs ++ walkSubdirs ign (relDir ++ [n]) cs

/-- Companion of `walkNode`: descend into each entry of a listing in
order. -/
def walkSubdirs (ign : List String) (relDir : List String) :
    FsTree → List (List String × String × Option Content)
  | .nil => []
  | .cons hd tl => walkNode ign relDir hd ++ walkSubdirs ign relDir tl
end

/-- `os.walk` from one directory, top-down: the files of the root listing
come first, then the pruned descent.  Each yielded file carries the path of
its directory relative to the walk root, its name, and its read result. -/
def walkChildren (ign : List String) (relDir : List String) (children : FsTree) :
    List (List String × String × Option Content) :=
  filesOfT relDir children ++ walkSubdirs ign relDir children

/-- One entry of the engine's `sources` list: its path, and its tree
(`none` when the path does not exist, so `if not src.exists(): continue`
applies). -/
structure Source where
  path : Key
  tree : Option FsTree

/-- `Path(p).name`: the final path segment. -/
def lastName (p : Key) : String := p.getLastD ""

/-- Lines 109–111 of `app.py`: `sources or []`, then drop falsy entries
(a missing list becomes empty, empty path strings are dropped; a single
string was already wrapped into a one-element list). -/
def normalizeSources (sources : Option (List Source)) : List Source :=
  (sources.getD []).filter (fun s => !s.path.isEmpty)

/-- One file exactly as the engine encounters it: which source it came
from, the walk data for it. -/
structure FileCtx where
  srcPath : Key
  srcName : String
  relDir : List String
  name : String
  read : Option Content
deriving DecidableEq

/-- `str(file_path.resolve())`, the fingerprint-store key: the absolute
path of the file. -/
def keyOf (c : FileCtx) : Key := c.srcPath ++ c.relDir ++ [c.name]

/-- `out = base / src.name / rel`: the output path of the file. -/
def outOf (base : Key) (c : FileCtx) : Key :=
  base ++ [c.srcName] ++ c.relDir ++ [c.name]

/-- The files one source contributes, in processing order: nothing when the
source does not exist, else its pruned walk. -/
def sourceTrace (ign : List String) (src : Source) : List FileCtx :=
  match src.tree with
  | none => []
  | some children =>
      (walkChildren ign [] children).map
        (fun t => ⟨src.path, lastName src.path, t.1, t.2.1, t.2.2⟩)

/-- All files the run encounters, across the normalized sources, in
processing order (the two nested loops of lines 113–120 flattened). -/
def runTrace (ign : List String) : List Source → List FileCtx
  | [] => []
  | s :: rest => sourceTrace ign s ++ runTrace ign rest

/-! ### The backup engine -/

/-- The engine's run state: the three counters, the in-memory fingerprint
map, the destination filesystem and `written_files`. -/
structure RunSt where
  copied : Nat
  skipped : Nat
  total : Nat
  state : State
  dest : DestFS
  written : List Key
deriving DecidableEq

/-- Lines 120–139 of `app.py`, processing one file: `total` is incremented
before the ignore check; `sha256(file_path)` raises when the read fails
(modelled by `read = none`, aborting with `Except.error`); the skip test is
`key in state and state[key] == h and out.exists()`; otherwise the bytes are
copied to `out` unless `dry_run`, and — dry run or not — the fingerprint
record is updated, the output path appended to `written_files` and `copied`
incremented.  The progress callback only observes `copied / max(total, 1)`
and is not modelled. -/
def processFile (hash : Content → String) (ign : List String) (dryRun : Bool)
    (base : Key) (st : RunSt) (c : FileCtx) : Except Unit RunSt :=
  let st := { st with total := st.total + 1 }
  if ignored c.name ign then .ok st
  else
    match c.read with
    | none => .error ()
    | some content =>
      let key := keyOf c
      let out := outOf base c
      let h := hash content
      if alookup key st.state = some h ∧ (alookup out st.dest).isSome = true then
        .ok { st with skipped := st.skipped + 1 }
      else
        .ok { st with
              dest := if dryRun then st.dest else ainsert st.dest out content,
              state := ainsert st.state key h,
              written := st.written ++ [out],
              copied := st.copied + 1 }

/-- Left fold of a fallible step over a list: a Python `for` loop whose body
may raise, propagating the exception. -/
def foldE {α : Type} (f : RunSt → α → Except Unit RunSt) (st : RunSt) :
    List α → Except Unit RunSt
  | [] => .ok st
  | x :: xs =>
    match f st x with
    | .error e => .error e
    | .ok st' => foldE f st' xs

/-- `p.relative_to(base)`: strip `base` from the front of `p`; `none`
models the `ValueError` raised when `base` is not a prefix of `p`. -/
def relativeTo (p base : Key) : Option (List String) :=
  match base, p with
  | [], rest => some rest
  | _ :: _, [] => none
  | b :: bs, a :: qs => if a = b then relativeTo qs bs else none

/-- The archive artifact of a run: its path, and its entries in order —
each an arcname (`f.relative_to(base)`) paired with the bytes found on the
destination filesystem when the entry is added.  `zip`, `tar` and `tar.gz`
only differ in compression, which the model does not distinguish. -/
structure ArchiveFile where
  path : Key
  entries : List (Option (List String) × Option Content)
deriving DecidableEq

/-- Everything a completed `backup_engine` call returns and leaves behind:
the summary counts, the optional archive, the fingerprint map handed to the
final `save_json`, the destination filesystem, and `written_files`. -/
structure BackupResult where
  copied : Nat
  skipped : Nat
  total : Nat
  archive : Option ArchiveFile
  savedState : State
  dest : DestFS
  written : List Key
deriving DecidableEq

/-- Lines 99–103 of `app.py`: the run's base directory — a fresh
timestamp-named subdirectory of the destination in `incremental` mode, the
destination itself otherwise. -/
def mkBase (mode : String) (destination : Key) (now : String) : Key :=
  if mode = "incremental" then destination ++ [now] else destination

/-- Lines 141–152 of `app.py`: unless the archive kind is `none` or this is
a dry run, build `backup_<now>.<kind>` inside `base`, adding every file of
`written_files` in order under the arcname `f.relative_to(base)`, with the
bytes the destination filesystem holds for it. -/
def mkArchive (archiveType : String) (dryRun : Bool) (now : String)
    (base : Key) (st : RunSt) : Option ArchiveFile :=
  if archiveType ≠ "none" ∧ dryRun = false then
    some ⟨base ++ ["backup_" ++ now ++ "." ++ archiveType],
          st.written.map (fun f => (relativeTo f base, alookup f st.dest))⟩
  else none

/-- Lines 91–156 of `app.py`.  `now` is the already-formatted timestamp
string; the loaded fingerprint store (`state₀`), the loaded ignore patterns
and the destination filesystem (`dest₀`) stand in for the corresponding
file reads; `hash` stands for the chunked `hashlib.sha256` hex digest — a
deterministic function of the file's full byte content.  `base.mkdir` and
`out.parent.mkdir` create directories only and so do not change the
file-content map. -/
def backup_engine (hash : Content → String) (sources : Option (List Source))
    (destination : Key) (mode archiveType : String) (dryRun : Bool)
    (now : String) (state₀ : State) (ign : List String) (dest₀ : DestFS) :
    Except Unit BackupResult :=
  let base := mkBase mode destination now
  let init : RunSt := ⟨0, 0, 0, state₀, dest₀, []⟩
  let srcs := normalizeSources sources
  match foldE (processFile hash ign dryRun base) init (runTrace ign srcs) with
  | .error e => .error e
  | .ok st =>
    .ok ⟨st.copied, st.skipped, st.total, mkArchive archiveType dryRun now base st,
         st.state, st.dest, st.written⟩

/-- The on-disk fingerprint store around one engine call: the in-memory
state is loaded from the previous file contents (`prev`, with `load_json`'s
`{}` default when the file is absent), and `save_json(STATE_FILE, state)`
runs only at line 154, after everything else — so a run aborted by an
exception leaves the previous file untouched. -/
def runAndPersist (prev : Option State) (hash : Content → String)
    (sources : Option (List Source)) (destination : Key)
    (mode archiveType : String) (dryRun : Bool) (now : String)
    (ign : List String) (dest₀ : DestFS) :
    Option State × Except Unit BackupResult :=
  match backup_engine hash sources destination mode archiveType dryRun now
      (prev.getD []) ign dest₀ with
  | .ok r => (some r.savedState, .ok r)
  | .error e => (prev, .error e)

/-! ### The restore engine -/

/-- The copy loop of `restore_backup`: each walked file is copied to the
same relative path under `targetDir` (parent directories created, existing
files overwritten), raising when the read fails, and counted. -/
def restoreGo (targetDir : Key) (fs : DestFS) (n : Nat) :
    List (List String × String × Option Content) → Except Unit (Nat × DestFS)
  | [] => .ok (n, fs)
  | (relDir, name, read) :: rest =>
    match read with
    | none => .error ()
    | some content =>
        restoreGo targetDir (ainsert fs (targetDir ++ relDir ++ [name]) content)
          (n + 1) rest

/-- Lines 162–174 of `app.py`: walk `backup_folder` — `os.walk` over a path
that does not exist (`tree = none`) yields nothing — copy every file to the
identical relative path under `target_dir`, and return the count wrapped in
a success message. -/
def restore_backup (backupTree : Option FsTree) (targetDir : Key)
    (target₀ : DestFS) : Except Unit (String × DestFS) :=
  let trace :=
    match backupTree with
    | none => []
    | some children => walkChildren [] [] children
  match restoreGo targetDir target₀ 0 trace with
  | .error e => .error e
  | .ok (n, fs) => .ok ("✅ Restored " ++ toString n ++ " files", fs)

/-! ### Basic lemmas about the map operations -/

theorem alookup_ainsert_self {α : Type} (m : List (Key × α)) (k : Key) (v : α) :
    alookup k (ainsert m k v) = some v := by
  simp [alookup, ainsert]

theorem alookup_ainsert_ne {α : Type} (m : List (Key × α)) {k k' : Key} (v : α)
    (h : k' ≠ k) : alookup k (ainsert m k' v) = alookup k m := by
  simp [alookup, ainsert, h]

theorem isSome_alookup_ainsert {α : Type} (m : List (Key × α)) (k k' : Key) (v : α)
    (h : (alookup k m).isSome = true) : (alookup k (ainsert m k' v)).isSome = true := by
  by_cases hk : k' = k
  · subst hk; simp [alookup_ainsert_self]
  · rwa [alookup_ainsert_ne m v hk]

theorem relativeTo_append (base rest : Key) :
    relativeTo (base ++ rest) base = some rest := by
  induction base with
  | nil => simp [relativeTo]
  | cons b bs ih => simpa [relativeTo] using ih

/-! ### The shape of one `processFile` step -/

/-- Exhaustive case analysis of one per-file step: the file is ignored, or
its read fails, or it is skipped, or it is (would-be) copied. -/
theorem processFile_cases (hash : Content → String) (ign : List String)
    (dryRun : Bool) (base : Key) (st : RunSt) (c : FileCtx) :
    (ignored c.name ign = true ∧
      processFile hash ign dryRun base st c =
        .ok ⟨st.copied, st.skipped, st.total + 1, st.state, st.dest, st.written⟩) ∨
    (ignored c.name ign = false ∧ c.read = none ∧
      processFile hash ign dryRun base st c = .error ()) ∨
    (∃ cc, ignored c.name ign = false ∧ c.read = some cc ∧
      ((alookup (keyOf c) st.state = some (hash cc) ∧
          (alookup (outOf base c) st.dest).isSome = true ∧
        processFile hash ign dryRun base st c =
          .ok ⟨st.copied, st.skipped + 1, st.total + 1, st.state, st.dest, st.written⟩) ∨
       (¬(alookup (keyOf c) st.state = some (hash cc) ∧
            (alookup (outOf base c) st.dest).isSome = true) ∧
        processFile hash ign dryRun base st c =
          .ok ⟨st.copied + 1, st.skipped, st.total + 1,
               ainsert st.state (keyOf c) (hash cc),
               if dryRun then st.dest else ainsert st.dest (outOf base c) cc,
               st.written ++ [outOf base c]⟩))) := by
  by_cases hig : ignored c.name ign
  · exact Or.inl ⟨hig, by simp [processFile, hig]⟩
  · cases hread : c.read with
    | none =>
        exact Or.inr (Or.inl ⟨by simpa using hig, rfl, by
          simp [processFile, hig, hread]⟩)
    | some cc =>
        refine Or.inr (Or.inr ⟨cc, by simpa using hig, rfl, ?_⟩)
        by_cases hcond : alookup (keyOf c) st.state = some (hash cc) ∧
            (alookup (outOf base c) st.dest).isSome = true
        · exact Or.inl ⟨hcond.1, hcond.2, by simp [processFile, hig, hread, hcond]⟩
        · exact Or.inr ⟨hcond, by simp [processFile, hig, hread, hcond]⟩

/-- The ignored-file step: only `total` moves. -/
theorem processFile_ignored (hash : Content → String) (ign : List String)
    (dryRun : Bool) (base : Key) (st : RunSt) (c : FileCtx)
    (hig : ignored c.name ign = true) :
    processFile hash ign dryRun base st c =
      .ok ⟨st.copied, st.skipped, st.total + 1, st.state, st.dest, st.written⟩ := by
  simp [processFile, hig]

/-- The skip step: with a matching record and an existing output file, only
`total` and `skipped` move. -/
theorem processFile_skip (hash : Content → String) (ign : List String)
    (dryRun : Bool) (base : Key) (st : RunSt) (c : FileCtx) (cc : Content)
    (hig : ignored c.name ign = false) (hread : c.read = some cc)
    (h1 : alookup (keyOf c) st.state = some (hash cc))
    (h2 : (alookup (outOf base c) st.dest).isSome = true) :
    processFile hash ign dryRun base st c =
      .ok ⟨st.copied, st.skipped + 1, st.total + 1, st.state, st.dest, st.written⟩ := by
  simp [processFile, hig, hread, h1, h2]

/-! ### Fold-level facts about a whole traversal -/

theorem foldE_ok_elim {α : Type} (f : RunSt → α → Except Unit RunSt) (st : RunSt)
    (x : α) (xs : List α) (st' : RunSt)
    (h : foldE f st (x :: xs) = .ok st') :
    ∃ st₁, f st x = .ok st₁ ∧ foldE f st₁ xs = .ok st' := by
  cases hfx : f st x with
  | error e => simp [foldE, hfx] at h
  | ok st₁ => exact ⟨st₁, rfl, by simpa [foldE, hfx] using h⟩

/-- Counting: a completed traversal adds the number of encountered files to
`total`, and adds exactly one to `copied + skipped` for each non-ignored
file. -/
theorem fold_counts (hash : Content → String) (ign : List String) (dryRun : Bool)
    (base : Key) (l : List FileCtx) :
    ∀ st st' : RunSt, foldE (processFile hash ign dryRun base) st l = .ok st' →
      st'.total = st.total + l.length ∧
      st'.copied + st'.skipped =
        st.copied + st.skipped + l.countP (fun c => !ignored c.name ign) := by
  induction l with
  | nil => intro st st' h; cases h; simp
  | cons c t ih =>
    intro st st' h
    obtain ⟨st₁, hstep, hrest⟩ := foldE_ok_elim _ _ _ _ _ h
    have hcnt := ih st₁ st' hrest
    rcases processFile_cases hash ign dryRun base st c with
      ⟨hig, heq⟩ | ⟨hig, hrd, heq⟩ | ⟨cc, hig, hrd, ⟨h1, h2, heq⟩ | ⟨hc, heq⟩⟩
    · rw [heq] at hstep; cases hstep
      simp only [List.countP_cons, List.length_cons, hig] at hcnt ⊢
      simp at hcnt ⊢; omega
    · rw [heq] at hstep; cases hstep
    · rw [heq] at hstep; cases hstep
      simp only [List.countP_cons, List.length_cons, hig] at hcnt ⊢
      simp at hcnt ⊢; omega
    · rw [heq] at hstep; cases hstep
      simp only [List.countP_cons, List.length_cons, hig] at hcnt ⊢
      simp at hcnt ⊢; omega

/-- A traversal completes exactly when every non-ignored file it encounters
can be read (an unreadable file makes `sha256` raise and the run abort). -/
theorem fold_ok_iff (hash : Content → String) (ign : List String) (dryRun : Bool)
    (base : Key) (l : List FileCtx) :
    ∀ st : RunSt, (∃ st', foldE (processFile hash ign dryRun base) st l = .ok st') ↔
      ∀ c ∈ l, ignored c.name ign = false → c.read ≠ none := by
  induction l with
  | nil => intro st; simp [foldE]
  | cons c t ih =>
    intro st
    constructor
    · rintro ⟨st', h⟩
      obtain ⟨st₁, hstep, hrest⟩ := foldE_ok_elim _ _ _ _ _ h
      intro c' hc' hig'
      rcases List.mem_cons.mp hc' with rfl | hc'
      · rcases processFile_cases hash ign dryRun base st c' with
          ⟨hig, _⟩ | ⟨_, hrd, heq⟩ | ⟨cc, _, hrd, _⟩
        · rw [hig] at hig'; cases hig'
        · rw [heq] at hstep; cases hstep
        · rw [hrd]; simp
      · exact (ih st₁).mp ⟨st', hrest⟩ c' hc' hig'
    · intro hall
      have hstep : ∃ st₁, processFile hash ign dryRun base st c = .ok st₁ := by
        rcases processFile_cases hash ign dryRun base st c with
          ⟨_, heq⟩ | ⟨hig, hrd, _⟩ | ⟨cc, _, _, ⟨_, _, heq⟩ | ⟨_, heq⟩⟩
        · exact ⟨_, heq⟩
        · exact absurd hrd (hall c (List.mem_cons_self ..) hig)
        · exact ⟨_, heq⟩
        · exact ⟨_, heq⟩
      obtain ⟨st₁, hstep⟩ := hstep
      obtain ⟨st', hrest⟩ :=
        (ih st₁).mpr (fun c' h' => hall c' (List.mem_cons_of_mem _ h'))
      exact ⟨st', by simp [foldE, hstep, hrest]⟩

/-- A traversal containing a non-ignored unreadable file aborts with the
propagated exception. -/
theorem fold_error_of_failure (hash : Content → String) (ign : List String)
    (dryRun : Bool) (base : Key) (l : List FileCtx)
    (h : ∃ c ∈ l, ignored c.name ign = false ∧ c.read = none) (st : RunSt) :
    foldE (processFile hash ign dryRun base) st l = .error () := by
  cases hf : foldE (processFile hash ign dryRun base) st l with
  | ok st' =>
    obtain ⟨c, hc, hig, hrd⟩ := h
    exact absurd hrd ((fold_ok_iff hash ign dryRun base l st).mp ⟨st', hf⟩ c hc hig)
  | error e => cases e; rfl

/-- A dry traversal never writes to the destination filesystem. -/
theorem fold_dest_dry (hash : Content → String) (ign : List String)
    (base : Key) (l : List FileCtx) :
    ∀ st st' : RunSt, foldE (processFile hash ign true base) st l = .ok st' →
      st'.dest = st.dest := by
  induction l with
  | nil => intro st st' h; cases h; rfl
  | cons c t ih =>
    intro st st' h
    obtain ⟨st₁, hstep, hrest⟩ := foldE_ok_elim _ _ _ _ _ h
    have htail := ih st₁ st' hrest
    rcases processFile_cases hash ign true base st c with
      ⟨hig, heq⟩ | ⟨hig, hrd, heq⟩ | ⟨cc, hig, hrd, ⟨h1, h2, heq⟩ | ⟨hc, heq⟩⟩ <;>
      rw [heq] at hstep <;> cases hstep <;> simpa using htail

/-- The destination filesystem only gains files during a traversal. -/
theorem fold_dest_mono (hash : Content → String) (ign : List String) (dryRun : Bool)
    (base : Key) (l : List FileCtx) :
    ∀ st st' : RunSt, foldE (processFile hash ign dryRun base) st l = .ok st' →
      ∀ p, (alookup p st.dest).isSome = true → (alookup p st'.dest).isSome = true := by
  induction l with
  | nil => intro st st' h; cases h; exact fun p hp => hp
  | cons c t ih =>
    intro st st' h p hp
    obtain ⟨st₁, hstep, hrest⟩ := foldE_ok_elim _ _ _ _ _ h
    rcases processFile_cases hash ign dryRun base st c with
      ⟨hig, heq⟩ | ⟨hig, hrd, heq⟩ | ⟨cc, hig, hrd, ⟨h1, h2, heq⟩ | ⟨hc, heq⟩⟩ <;>
      rw [heq] at hstep <;> cases hstep
    · exact ih _ st' hrest p hp
    · exact ih _ st' hrest p hp
    · refine ih _ st' hrest p ?_
      cases dryRun with
      | true => simpa using hp
      | false => simpa using isSome_alookup_ainsert st.dest p (outOf base c) cc hp

/-- Fingerprint records are never removed during a traversal. -/
theorem fold_state_mono (hash : Content → String) (ign : List String) (dryRun : Bool)
    (base : Key) (l : List FileCtx) :
    ∀ st st' : RunSt, foldE (processFile hash ign dryRun base) st l = .ok st' →
      ∀ k, (alookup k st.state).isSome = true → (alookup k st'.state).isSome = true := by
  induction l with
  | nil => intro st st' h; cases h; exact fun k hk => hk
  | cons c t ih =>
    intro st st' h k hk
    obtain ⟨st₁, hstep, hrest⟩ := foldE_ok_elim _ _ _ _ _ h
    rcases processFile_cases hash ign dryRun base st c with
      ⟨hig, heq⟩ | ⟨hig, hrd, heq⟩ | ⟨cc, hig, hrd, ⟨h1, h2, heq⟩ | ⟨hc, heq⟩⟩ <;>
      rw [heq] at hstep <;> cases hstep
    · exact ih _ st' hrest k hk
    · exact ih _ st' hrest k hk
    · exact ih _ st' hrest k
        (by simpa using isSome_alookup_ainsert st.state k (keyOf c) (hash cc) hk)

/-- Any fingerprint record present after a traversal was present before it
or belongs to a non-ignored file the traversal encountered. -/
theorem fold_state_dom (hash : Content → String) (ign : List String) (dryRun : Bool)
    (base : Key) (l : List FileCtx) :
    ∀ st st' : RunSt, foldE (processFile hash ign dryRun base) st l = .ok st' →
      ∀ k, (alookup k st'.state).isSome = true →
        (alookup k st.state).isSome = true ∨
          ∃ c ∈ l, ignored c.name ign = false ∧ keyOf c = k := by
  induction l with
  | nil => intro st st' h; cases h; exact fun k hk => Or.inl hk
  | cons c t ih =>
    intro st st' h k hk
    obtain ⟨st₁, hstep, hrest⟩ := foldE_ok_elim _ _ _ _ _ h
    rcases processFile_cases hash ign dryRun base st c with
      ⟨hig, heq⟩ | ⟨hig, hrd, heq⟩ | ⟨cc, hig, hrd, ⟨h1, h2, heq⟩ | ⟨hc, heq⟩⟩ <;>
      rw [heq] at hstep <;> cases hstep
    · rcases ih _ st' hrest k hk with hin | ⟨c', hc', hig', hkey⟩
      · exact Or.inl hin
      · exact Or.inr ⟨c', List.mem_cons_of_mem _ hc', hig', hkey⟩
    · rcases ih _ st' hrest k hk with hin | ⟨c', hc', hig', hkey⟩
      · exact Or.inl hin
      · exact Or.inr ⟨c', List.mem_cons_of_mem _ hc', hig', hkey⟩
    · rcases ih _ st' hrest k hk with hin | ⟨c', hc', hig', hkey⟩
      · by_cases hkc : keyOf c = k
        · exact Or.inr ⟨c, List.mem_cons_self .., hig, hkc⟩
        · rw [show (⟨st.copied + 1, st.skipped, st.total + 1,
                ainsert st.state (keyOf c) (hash cc),
                if dryRun then st.dest else ainsert st.dest (outOf base c) cc,
                st.written ++ [outOf base c]⟩ : RunSt).state =
              ainsert st.state (keyOf c) (hash cc) from rfl,
            alookup_ainsert_ne st.state (hash cc) hkc] at hin
          exact Or.inl hin
      · exact Or.inr ⟨c', List.mem_cons_of_mem _ hc', hig', hkey⟩

/-- Every output path appended to `written_files` during a traversal belongs
to a non-ignored encountered file. -/
theorem fold_written (hash : Content → String) (ign : List String) (dryRun : Bool)
    (base : Key) (l : List FileCtx) :
    ∀ st st' : RunSt, foldE (processFile hash ign dryRun base) st l = .ok st' →
      ∀ f ∈ st'.written, f ∈ st.written ∨
        ∃ c ∈ l, ignored c.name ign = false ∧ f = outOf base c := by
  induction l with
  | nil => intro st st' h; cases h; exact fun f hf => Or.inl hf
  | cons c t ih =>
    intro st st' h f hf
    obtain ⟨st₁, hstep, hrest⟩ := foldE_ok_elim _ _ _ _ _ h
    rcases processFile_cases hash ign dryRun base st c with
      ⟨hig, heq⟩ | ⟨hig, hrd, heq⟩ | ⟨cc, hig, hrd, ⟨h1, h2, heq⟩ | ⟨hc, heq⟩⟩ <;>
      rw [heq] at hstep <;> cases hstep
    · rcases ih _ st' hrest f hf with hin | ⟨c', hc', hig', hout⟩
      · exact Or.inl hin
      · exact Or.inr ⟨c', List.mem_cons_of_mem _ hc', hig', hout⟩
    · rcases ih _ st' hrest f hf with hin | ⟨c', hc', hig', hout⟩
      · exact Or.inl hin
      · exact Or.inr ⟨c', List.mem_cons_of_mem _ hc', hig', hout⟩
    · rcases ih _ st' hrest f hf with hin | ⟨c', hc', hig', hout⟩
      · rcases List.mem_append.mp hin with hin | hin
        · exact Or.inl hin
        · exact Or.inr ⟨c, List.mem_cons_self .., hig, List.mem_singleton.mp hin⟩
      · exact Or.inr ⟨c', List.mem_cons_of_mem _ hc', hig', hout⟩

/-- In a real (non-dry) traversal, every file of `written_files` is present
on the destination filesystem afterwards. -/
theorem fold_written_dest (hash : Content → String) (ign : List String)
    (base : Key) (l : List FileCtx) :
    ∀ st st' : RunSt, foldE (processFile hash ign false base) st l = .ok st' →
      (∀ f ∈ st.written, (alookup f st.dest).isSome = true) →
      ∀ f ∈ st'.written, (alookup f st'.dest).isSome = true := by
  induction l with
  | nil => intro st st' h hpre; cases h; exact hpre
  | cons c t ih =>
    intro st st' h hpre
    obtain ⟨st₁, hstep, hrest⟩ := foldE_ok_elim _ _ _ _ _ h
    rcases processFile_cases hash ign false base st c with
      ⟨hig, heq⟩ | ⟨hig, hrd, heq⟩ | ⟨cc, hig, hrd, ⟨h1, h2, heq⟩ | ⟨hc, heq⟩⟩ <;>
      rw [heq] at hstep <;> cases hstep
    · exact ih _ st' hrest hpre
    · exact ih _ st' hrest hpre
    · refine ih _ st' hrest ?_
      intro f hf
      rcases List.mem_append.mp hf with hf | hf
      · exact isSome_alookup_ainsert st.dest f (outOf base c) cc (hpre f hf)
      · rw [List.mem_singleton.mp hf]
        simp [alookup_ainsert_self]

/-- A record whose key is only ever re-fingerprinted to the same digest
keeps its value across a traversal. -/
theorem fold_state_preserve (hash : Content → String) (ign : List String)
    (dryRun : Bool) (base : Key) (l : List FileCtx) (k : Key) (v : String)
    (hk : ∀ c ∈ l, ignored c.name ign = false → keyOf c = k →
        ∃ cc, c.read = some cc ∧ hash cc = v) :
    ∀ st st' : RunSt, foldE (processFile hash ign dryRun base) st l = .ok st' →
      alookup k st.state = some v → alookup k st'.state = some v := by
  induction l with
  | nil => intro st st' h hv; cases h; exact hv
  | cons c t ih =>
    intro st st' h hv
    obtain ⟨st₁, hstep, hrest⟩ := foldE_ok_elim _ _ _ _ _ h
    have hktail := fun c' hc' => hk c' (List.mem_cons_of_mem _ hc')
    rcases processFile_cases hash ign dryRun base st c with
      ⟨hig, heq⟩ | ⟨hig, hrd, heq⟩ | ⟨cc, hig, hrd, ⟨h1, h2, heq⟩ | ⟨hc, heq⟩⟩ <;>
      rw [heq] at hstep <;> cases hstep
    · exact ih hktail _ st' hrest hv
    · exact ih hktail _ st' hrest hv
    · refine ih hktail _ st' hrest ?_
      by_cases hkc : keyOf c = k
      · obtain ⟨cc', hrd', hv'⟩ := hk c (List.mem_cons_self ..) hig hkc
        rw [hrd] at hrd'
        cases hrd'
        show alookup k (ainsert st.state (keyOf c) (hash cc)) = some v
        rw [hkc, hv', alookup_ainsert_self]
      · show alookup k (ainsert st.state (keyOf c) (hash cc)) = some v
        rw [alookup_ainsert_ne st.state (hash cc) hkc]
        exact hv

/-- After a completed real (non-dry) traversal of a consistent filesystem
(two encounters of the same absolute path read the same bytes), every
non-ignored encountered file has a fingerprint record matching its content
and its output file present on the destination. -/
theorem fold_establish (hash : Content → String) (ign : List String)
    (base : Key) (l : List FileCtx)
    (hcons : ∀ c1 ∈ l, ∀ c2 ∈ l, keyOf c1 = keyOf c2 → c1.read = c2.read) :
    ∀ st st' : RunSt, foldE (processFile hash ign false base) st l = .ok st' →
      ∀ c ∈ l, ignored c.name ign = false →
        ∃ cc, c.read = some cc ∧ alookup (keyOf c) st'.state = some (hash cc) ∧
          (alookup (outOf base c) st'.dest).isSome = true := by
  induction l with
  | nil => intro st st' h c hc; cases hc
  | cons c0 t ih =>
    intro st st' h c hc higc
    obtain ⟨st₁, hstep, hrest⟩ := foldE_ok_elim _ _ _ _ _ h
    have hconst : ∀ c1 ∈ t, ∀ c2 ∈ t, keyOf c1 = keyOf c2 → c1.read = c2.read :=
      fun c1 h1 c2 h2 =>
        hcons c1 (List.mem_cons_of_mem _ h1) c2 (List.mem_cons_of_mem _ h2)
    rcases List.mem_cons.mp hc with rfl | hct
    · -- the file at the head of the traversal
      rcases processFile_cases hash ign false base st c with
        ⟨hig, heq⟩ | ⟨hig, hrd, heq⟩ | ⟨cc, hig, hrd, ⟨h1, h2, heq⟩ | ⟨hcnd, heq⟩⟩
      · rw [hig] at higc; cases higc
      · rw [heq] at hstep; cases hstep
      · -- skipped: the record and the output file were already in place
        rw [heq] at hstep; cases hstep
        refine ⟨cc, hrd, ?_, ?_⟩
        · refine fold_state_preserve hash ign false base t (keyOf c) (hash cc)
            ?_ _ st' hrest h1
          intro c' hc' _ hkey
          refine ⟨cc, ?_, rfl⟩
          have := hcons c' (List.mem_cons_of_mem _ hc') c (List.mem_cons_self ..)
            hkey
          rw [this, hrd]
        · exact fold_dest_mono hash ign false base t _ st' hrest _ h2
      · -- copied: the step itself installs the record and the output file
        rw [heq] at hstep; cases hstep
        refine ⟨cc, hrd, ?_, ?_⟩
        · refine fold_state_preserve hash ign false base t (keyOf c) (hash cc)
            ?_ _ st' hrest ?_
          · intro c' hc' _ hkey
            refine ⟨cc, ?_, rfl⟩
            have := hcons c' (List.mem_cons_of_mem _ hc') c
              (List.mem_cons_self ..) hkey
            rw [this, hrd]
          · show alookup (keyOf c) (ainsert st.state (keyOf c) (hash cc)) =
              some (hash cc)
            exact alookup_ainsert_self ..
        · refine fold_dest_mono hash ign false base t _ st' hrest _ ?_
          show (alookup (outOf base c)
            (if false = true then st.dest else ainsert st.dest (outOf base c) cc)).isSome = true
          simp [alookup_ainsert_self]
    · exact ih hconst _ st' hrest c hct higc

/-- A traversal in which every non-ignored file already has a matching
record and an existing output file completes while skipping everything:
no copy, no state change, no destination change, nothing written. -/
theorem fold_skip_run (hash : Content → String) (ign : List String)
    (dryRun : Bool) (base : Key) (l : List FileCtx) :
    ∀ st : RunSt,
      (∀ c ∈ l, ignored c.name ign = false →
        ∃ cc, c.read = some cc ∧ alookup (keyOf c) st.state = some (hash cc) ∧
          (alookup (outOf base c) st.dest).isSome = true) →
      foldE (processFile hash ign dryRun base) st l =
        .ok ⟨st.copied, st.skipped + l.countP (fun c => !ignored c.name ign),
             st.total + l.length, st.state, st.dest, st.written⟩ := by
  induction l with
  | nil => intro st _; simp [foldE]
  | cons c t ih =>
    intro st hall
    by_cases hig : ignored c.name ign
    · have hstep := processFile_ignored hash ign dryRun base st c hig
      have htail := ih (⟨st.copied, st.skipped, st.total + 1, st.state,
          st.dest, st.written⟩ : RunSt)
        (fun c' hc' hig' => hall c' (List.mem_cons_of_mem _ hc') hig')
      rw [show foldE (processFile hash ign dryRun base) st (c :: t) =
          foldE (processFile hash ign dryRun base)
            ⟨st.copied, st.skipped, st.total + 1, st.state, st.dest, st.written⟩ t
          from by simp [foldE, hstep], htail]
      simp only [List.countP_cons, List.length_cons, hig]
      simp; omega
    · obtain ⟨cc, hrd, h1, h2⟩ := hall c (List.mem_cons_self ..) (by simpa using hig)
      have hstep := processFile_skip hash ign dryRun base st c cc
        (by simpa using hig) hrd h1 h2
      have htail := ih (⟨st.copied, st.skipped + 1, st.total + 1, st.state,
          st.dest, st.written⟩ : RunSt)
        (fun c' hc' hig' => hall c' (List.mem_cons_of_mem _ hc') hig')
      rw [show foldE (processFile hash ign dryRun base) st (c :: t) =
          foldE (processFile hash ign dryRun base)
            ⟨st.copied, st.skipped + 1, st.total + 1, st.state, st.dest, st.written⟩ t
          from by simp [foldE, hstep], htail]
      simp only [List.countP_cons, List.length_cons, hig]
      simp; omega

/-- Unfolding `backup_engine`: a successful call is exactly a successful
traversal fold, packaged with the archive step. -/
theorem backup_engine_ok_iff (hash : Content → String)
    (sources : Option (List Source)) (destination : Key)
    (mode archiveType : String) (dryRun : Bool) (now : String)
    (state₀ : State) (ign : List String) (dest₀ : DestFS) (r : BackupResult) :
    backup_engine hash sources destination mode archiveType dryRun now state₀ ign dest₀ = .ok r ↔
    ∃ st' : RunSt,
      foldE (processFile hash ign dryRun (mkBase mode destination now))
        ⟨0, 0, 0, state₀, dest₀, []⟩ (runTrace ign (normalizeSources sources)) = .ok st' ∧
      r = ⟨st'.copied, st'.skipped, st'.total,
           mkArchive archiveType dryRun now (mkBase mode destination now) st',
           st'.state, st'.dest, st'.written⟩ := by
  unfold backup_engine
  cases hf : foldE (processFile hash ign dryRun (mkBase mode destination now))
      ⟨0, 0, 0, state₀, dest₀, []⟩ (runTrace ign (normalizeSources sources)) with
  | error e => simp [hf]
  | ok st => simp [hf, eq_comm]

/-- Unfolding `backup_engine`: the call aborts exactly when the traversal
fold does. -/
theorem backup_engine_error_iff (hash : Content → String)
    (sources : Option (List Source)) (destination : Key)
    (mode archiveType : String) (dryRun : Bool) (now : String)
    (state₀ : State) (ign : List String) (dest₀ : DestFS) :
    backup_engine hash sources destination mode archiveType dryRun now state₀ ign dest₀ = .error () ↔
    foldE (processFile hash ign dryRun (mkBase mode destination now))
        ⟨0, 0, 0, state₀, dest₀, []⟩ (runTrace ign (normalizeSources sources)) = .error () := by
  unfold backup_engine
  cases hf : foldE (processFile hash ign dryRun (mkBase mode destination now))
      ⟨0, 0, 0, state₀, dest₀, []⟩ (runTrace ign (normalizeSources sources)) with
  | error e => cases e; simp [hf]
  | ok st => simp [hf]

/-- After a completed traversal, every non-ignored encountered file has a
fingerprint record (matching or freshly written), dry run or not. -/
theorem fold_state_cover (hash : Content → String) (ign : List String)
    (dryRun : Bool) (base : Key) (l : List FileCtx) :
    ∀ st st' : RunSt, foldE (processFile hash ign dryRun base) st l = .ok st' →
      ∀ c ∈ l, ignored c.name ign = false →
        (alookup (keyOf c) st'.state).isSome = true := by
  induction l with
  | nil => intro st st' h c hc; cases hc
  | cons c0 t ih =>
    intro st st' h c hc higc
    obtain ⟨st₁, hstep, hrest⟩ := foldE_ok_elim _ _ _ _ _ h
    rcases List.mem_cons.mp hc with rfl | hct
    · rcases processFile_cases hash ign dryRun base st c with
        ⟨hig, heq⟩ | ⟨hig, hrd, heq⟩ | ⟨cc, hig, hrd, ⟨h1, h2, heq⟩ | ⟨hcnd, heq⟩⟩
      · rw [hig] at higc; cases higc
      · rw [heq] at hstep; cases hstep
      · rw [heq] at hstep; cases hstep
        exact fold_state_mono hash ign dryRun base t _ st' hrest _ (by simp [h1])
      · rw [heq] at hstep; cases hstep
        refine fold_state_mono hash ign dryRun base t _ st' hrest _ ?_
        show (alookup (keyOf c) (ainsert st.state (keyOf c) (hash cc))).isSome = true
        simp [alookup_ainsert_self]
    · exact ih _ st' hrest c hct higc

/-- A run over sources none of which exists encounters no file. -/
theorem runTrace_all_missing (ign : List String) (srcs : List Source)
    (h : ∀ s ∈ srcs, s.tree = none) : runTrace ign srcs = [] := by
  induction srcs with
  | nil => rfl
  | cons s t ih =>
    have hs := h s (List.mem_cons_self ..)
    have ht := ih (fun s' h' => h s' (List.mem_cons_of_mem _ h'))
    simp [runTrace, sourceTrace, hs, ht]

/-- Counting both polarities of a Boolean predicate exhausts the list. -/
theorem countP_not_add_countP (l : List FileCtx) (p : FileCtx → Bool) :
    l.countP (fun c => !p c) + l.countP p = l.length := by
  induction l with
  | nil => rfl
  | cons c t ih => by_cases h : p c <;> simp [List.countP_cons, h] <;> omega

/-- A completed fold over an appended traversal splits at the seam. -/
theorem foldE_append_ok {α : Type} (f : RunSt → α → Except Unit RunSt)
    (l₁ l₂ : List α) :
    ∀ st st' : RunSt, foldE f st (l₁ ++ l₂) = .ok st' →
      ∃ stm, foldE f st l₁ = .ok stm ∧ foldE f stm l₂ = .ok st' := by
  induction l₁ with
  | nil => intro st st' h; exact ⟨st, rfl, h⟩
  | cons x xs ih =>
    intro st st' h
    rw [List.cons_append] at h
    obtain ⟨st₁, hx, hrest⟩ := foldE_ok_elim f st x (xs ++ l₂) st' h
    obtain ⟨stm, h1, h2⟩ := ih st₁ st' hrest
    exact ⟨stm, by simp [foldE, hx, h1], h2⟩

/-- A fingerprint record whose key belongs to none of the traversed
non-ignored files is left exactly as it was. -/
theorem fold_state_other (hash : Content → String) (ign : List String)
    (dryRun : Bool) (base : Key) (l : List FileCtx) (k : Key)
    (hk : ∀ c ∈ l, ignored c.name ign = false → keyOf c ≠ k) :
    ∀ st st' : RunSt, foldE (processFile hash ign dryRun base) st l = .ok st' →
      alookup k st'.state = alookup k st.state := by
  induction l with
  | nil => intro st st' h; cases h; rfl
  | cons c t ih =>
    intro st st' h
    obtain ⟨st₁, hstep, hrest⟩ := foldE_ok_elim _ _ _ _ _ h
    have hktail := fun c' hc' => hk c' (List.mem_cons_of_mem _ hc')
    rcases processFile_cases hash ign dryRun base st c with
      ⟨hig, heq⟩ | ⟨hig, hrd, heq⟩ | ⟨cc, hig, hrd, ⟨h1, h2, heq⟩ | ⟨hc, heq⟩⟩ <;>
      rw [heq] at hstep <;> cases hstep
    · have hh := ih hktail _ st' hrest
      exact hh
    · have hh := ih hktail _ st' hrest
      exact hh
    · rw [ih hktail _ st' hrest]
      show alookup k (ainsert st.state (keyOf c) (hash cc)) = alookup k st.state
      exact alookup_ainsert_ne st.state (hash cc)
        (hk c (List.mem_cons_self ..) hig)

/-- A destination path that is the output of none of the traversed
non-ignored files is left exactly as it was. -/
theorem fold_dest_other (hash : Content → String) (ign : List String)
    (dryRun : Bool) (base : Key) (l : List FileCtx) (p : Key)
    (hp : ∀ c ∈ l, ignored c.name ign = false → outOf base c ≠ p) :
    ∀ st st' : RunSt, foldE (processFile hash ign dryRun base) st l = .ok st' →
      alookup p st'.dest = alookup p st.dest := by
  induction l with
  | nil => intro st st' h; cases h; rfl
  | cons c t ih =>
    intro st st' h
    obtain ⟨st₁, hstep, hrest⟩ := foldE_ok_elim _ _ _ _ _ h
    have hptail := fun c' hc' => hp c' (List.mem_cons_of_mem _ hc')
    rcases processFile_cases hash ign dryRun base st c with
      ⟨hig, heq⟩ | ⟨hig, hrd, heq⟩ | ⟨cc, hig, hrd, ⟨h1, h2, heq⟩ | ⟨hc, heq⟩⟩ <;>
      rw [heq] at hstep <;> cases hstep
    · have hh := ih hptail _ st' hrest
      exact hh
    · have hh := ih hptail _ st' hrest
      exact hh
    · rw [ih hptail _ st' hrest]
      show alookup p (if dryRun then st.dest
          else ainsert st.dest (outOf base c) cc) = alookup p st.dest
      cases dryRun with
      | true => rfl
      | false =>
        exact alookup_ainsert_ne st.dest cc (hp c (List.mem_cons_self ..) hig)

/-- `written_files` only grows during a traversal. -/
theorem fold_written_mono (hash : Content → String) (ign : List String)
    (dryRun : Bool) (base : Key) (l : List FileCtx) :
    ∀ st st' : RunSt, foldE (processFile hash ign dryRun base) st l = .ok st' →
      ∀ f ∈ st.written, f ∈ st'.written := by
  induction l with
  | nil => intro st st' h; cases h; exact fun f hf => hf
  | cons c t ih =>
    intro st st' h f hf
    obtain ⟨st₁, hstep, hrest⟩ := foldE_ok_elim _ _ _ _ _ h
    rcases processFile_cases hash ign dryRun base st c with
      ⟨hig, heq⟩ | ⟨hig, hrd, heq⟩ | ⟨cc, hig, hrd, ⟨h1, h2, heq⟩ | ⟨hc, heq⟩⟩ <;>
      rw [heq] at hstep <;> cases hstep
    · exact ih _ st' hrest f hf
    · exact ih _ st' hrest f hf
    · exact ih _ st' hrest f (List.mem_append_left _ hf)

/-- `copied` never decreases during a traversal. -/
theorem fold_copied_mono (hash : Content → String) (ign : List String)
    (dryRun : Bool) (base : Key) (l : List FileCtx) :
    ∀ st st' : RunSt, foldE (processFile hash ign dryRun base) st l = .ok st' →
      st.copied ≤ st'.copied := by
  induction l with
  | nil => intro st st' h; cases h; exact Nat.le_refl _
  | cons c t ih =>
    intro st st' h
    obtain ⟨st₁, hstep, hrest⟩ := foldE_ok_elim _ _ _ _ _ h
    rcases processFile_cases hash ign dryRun base st c with
      ⟨hig, heq⟩ | ⟨hig, hrd, heq⟩ | ⟨cc, hig, hrd, ⟨h1, h2, heq⟩ | ⟨hc, heq⟩⟩ <;>
      rw [heq] at hstep <;> cases hstep
    · have hh := ih _ st' hrest
      exact hh
    · have hh := ih _ st' hrest
      exact hh
    · have hh := ih _ st' hrest
      exact Nat.le_trans (Nat.le_succ _) hh

/-- `copied` counts exactly the `written_files` entries: each copy branch
appends one path and adds one to `copied`, nothing else touches either. -/
theorem fold_copied_written_len (hash : Content → String) (ign : List String)
    (dryRun : Bool) (base : Key) (l : List FileCtx) :
    ∀ st st' : RunSt, foldE (processFile hash ign dryRun base) st l = .ok st' →
      st.copied = st.written.length → st'.copied = st'.written.length := by
  induction l with
  | nil => intro st st' h hlen; cases h; exact hlen
  | cons c t ih =>
    intro st st' h hlen
    obtain ⟨st₁, hstep, hrest⟩ := foldE_ok_elim _ _ _ _ _ h
    rcases processFile_cases hash ign dryRun base st c with
      ⟨hig, heq⟩ | ⟨hig, hrd, heq⟩ | ⟨cc, hig, hrd, ⟨h1, h2, heq⟩ | ⟨hc, heq⟩⟩ <;>
      rw [heq] at hstep <;> cases hstep
    · exact ih _ st' hrest hlen
    · exact ih _ st' hrest hlen
    · refine ih _ st' hrest ?_
      show st.copied + 1 = (st.written ++ [outOf base c]).length
      simp [hlen]

/-! ### The claims -/

/-- Claim C10: for every backup run that completes without error,
`copied + skipped ≤ total`; each file encountered in a non-pruned directory
is counted in `total` and each non-ignored one contributes to exactly one of
`copied`/`skipped` (their sum equals the number of non-ignored encountered
files); and a run over a missing, empty, or all-nonexistent source list
reports `copied = skipped = total = 0`. -/
theorem C10_count_invariants (hash : Content → String)
    (sources : Option (List Source)) (destination : Key)
    (mode archiveType : String) (dryRun : Bool) (now : String)
    (state₀ : State) (ign : List String) (dest₀ : DestFS) (r : BackupResult)
    (hok : backup_engine hash sources destination mode archiveType dryRun now
      state₀ ign dest₀ = .ok r) :
    r.copied + r.skipped ≤ r.total ∧
    r.total = (runTrace ign (normalizeSources sources)).length ∧
    r.copied + r.skipped =
      (runTrace ign (normalizeSources sources)).countP
        (fun c => !ignored c.name ign) ∧
    ((sources = none ∨ sources = some [] ∨
        ∀ s ∈ normalizeSources sources, s.tree = none) →
      r.copied = 0 ∧ r.skipped = 0 ∧ r.total = 0) := by
  obtain ⟨st', hfold, rfl⟩ :=
    (backup_engine_ok_iff hash sources destination mode archiveType dryRun now
      state₀ ign dest₀ _).mp hok
  obtain ⟨htot, hcs⟩ :=
    fold_counts hash ign dryRun (mkBase mode destination now) _ _ _ hfold
  have hle := List.countP_le_length
    (p := fun c => !ignored c.name ign) (l := runTrace ign (normalizeSources sources))
  simp only at htot hcs
  refine ⟨?_, ?_, ?_, ?_⟩
  · show st'.copied + st'.skipped ≤ st'.total
    omega
  · show st'.total = _
    omega
  · show st'.copied + st'.skipped = _
    omega
  · intro hsrc
    have hempty : runTrace ign (normalizeSources sources) = [] := by
      rcases hsrc with rfl | rfl | hall
      · rfl
      · rfl
      · exact runTrace_all_missing ign _ hall
    rw [hempty] at htot hcs
    simp only [List.length_nil, List.countP_nil] at htot hcs
    refine ⟨?_, ?_, ?_⟩
    · show st'.copied = 0
      omega
    · show st'.skipped = 0
      omega
    · show st'.total = 0
      omega

/-- Claim C4: ignore handling — `total` is incremented for every file
encountered in a non-pruned directory before the ignore check (so it equals
the number of encountered files, ignored ones included), an ignored file
contributes to neither `copied` nor `skipped` (their sum counts exactly the
non-ignored encountered files), and nothing is appended to `written_files`
for an ignored file: every `written_files` entry is the output path of some
non-ignored encountered file. -/
theorem C4_ignored_files (hash : Content → String)
    (sources : Option (List Source)) (destination : Key)
    (mode archiveType : String) (dryRun : Bool) (now : String)
    (state₀ : State) (ign : List String) (dest₀ : DestFS) (r : BackupResult)
    (hok : backup_engine hash sources destination mode archiveType dryRun now
      state₀ ign dest₀ = .ok r) :
    r.total = (runTrace ign (normalizeSources sources)).length ∧
    r.copied + r.skipped =
      (runTrace ign (normalizeSources sources)).countP
        (fun c => !ignored c.name ign) ∧
    ∀ f ∈ r.written, ∃ c ∈ runTrace ign (normalizeSources sources),
      ignored c.name ign = false ∧ f = outOf (mkBase mode destination now) c := by
  obtain ⟨st', hfold, rfl⟩ :=
    (backup_engine_ok_iff hash sources destination mode archiveType dryRun now
      state₀ ign dest₀ _).mp hok
  obtain ⟨htot, hcs⟩ :=
    fold_counts hash ign dryRun (mkBase mode destination now) _ _ _ hfold
  simp only at htot hcs
  refine ⟨by show st'.total = _; omega, by show st'.copied + st'.skipped = _; omega, ?_⟩
  intro f hf
  rcases fold_written hash ign dryRun (mkBase mode destination now) _ _ _ hfold f hf
    with hin | h
  · simp at hin
  · exact h

/-- Claim C2 counterexample: at the concrete input where the backup folder
does not exist, `restore_backup` returns a success result (the walk yields
nothing), not an error — contradicting the claim that the whole restore
operation fails. -/
theorem C2_counterexample :
    restore_backup none ["target"] [] = .ok ("✅ Restored 0 files", []) := rfl

/-- Claim C2 (amended): restoring from a `backupFolder` that does not exist
does not fail: `os.walk` over a missing path yields nothing, so the
operation returns a success message reporting zero restored files and
leaves the target filesystem untouched. -/
theorem C2_missing_backup_folder_succeeds (targetDir : Key) (target₀ : DestFS) :
    restore_backup none targetDir target₀ =
      .ok ("✅ Restored 0 files", target₀) := rfl

/-- Claim C8: if fingerprinting any single file raises an I/O error during
a backup run (a non-ignored encountered file whose read fails), the error
propagates and aborts the entire run, and the persisted fingerprint store
file is left exactly as it was before the run — `save_json` only runs at
the end of a completed run. -/
theorem C8_error_aborts_store_untouched (prev : Option State)
    (hash : Content → String) (sources : Option (List Source))
    (destination : Key) (mode archiveType : String) (dryRun : Bool)
    (now : String) (ign : List String) (dest₀ : DestFS)
    (hfail : ∃ c ∈ runTrace ign (normalizeSources sources),
      ignored c.name ign = false ∧ c.read = none) :
    runAndPersist prev hash sources destination mode archiveType dryRun now
      ign dest₀ = (prev, .error ()) := by
  have herr := (backup_engine_error_iff hash sources destination mode
      archiveType dryRun now (prev.getD []) ign dest₀).mpr
    (fold_error_of_failure hash ign dryRun (mkBase mode destination now) _ hfail _)
  simp [runAndPersist, herr]

/-- Witness for C8: a concrete run over a single unreadable file aborts with
the error and leaves the previous store file in place. -/
theorem C8_witness :
    (∃ c ∈ runTrace []
        (normalizeSources (some [⟨["s"], some (.cons (.file "a" none) .nil)⟩])),
      ignored c.name [] = false ∧ c.read = none) ∧
    runAndPersist (some [(["q"], "h")]) (fun _ => "d")
        (some [⟨["s"], some (.cons (.file "a" none) .nil)⟩])
        ["d"] "flat" "none" false "t" [] [] =
      (some [(["q"], "h")], .error ()) :=
  ⟨by decide,
   C8_error_aborts_store_untouched (some [(["q"], "h")]) (fun _ => "d")
     (some [⟨["s"], some (.cons (.file "a" none) .nil)⟩])
     ["d"] "flat" "none" false "t" [] [] (by decide)⟩

/-- Claim C9: destination layout and archive naming — the run's base is
`<destination>/<timestamp>` in incremental mode and `<destination>` in flat
mode, every copied file's output path is `<base>/<sourceDirName>/<relativePath>`,
and for a requested archive kind `zip`/`tar`/`tar.gz` in a non-dry run the
archive file is `backup_<timestamp>.<kind>` placed inside the base
directory. -/
theorem C9_layout_and_archive_naming (hash : Content → String)
    (sources : Option (List Source)) (destination : Key)
    (mode archiveType : String) (dryRun : Bool) (now : String)
    (state₀ : State) (ign : List String) (dest₀ : DestFS) (r : BackupResult)
    (hok : backup_engine hash sources destination mode archiveType dryRun now
      state₀ ign dest₀ = .ok r) :
    (mode = "incremental" → mkBase mode destination now = destination ++ [now]) ∧
    (mode = "flat" → mkBase mode destination now = destination) ∧
    (∀ f ∈ r.written, ∃ c ∈ runTrace ign (normalizeSources sources),
      ignored c.name ign = false ∧
      f = mkBase mode destination now ++ [c.srcName] ++ c.relDir ++ [c.name]) ∧
    ((archiveType = "zip" ∨ archiveType = "tar" ∨ archiveType = "tar.gz") →
      dryRun = false →
      ∃ a, r.archive = some a ∧
        a.path = mkBase mode destination now ++
          ["backup_" ++ now ++ "." ++ archiveType]) := by
  obtain ⟨st', hfold, rfl⟩ :=
    (backup_engine_ok_iff hash sources destination mode archiveType dryRun now
      state₀ ign dest₀ _).mp hok
  refine ⟨fun hm => by simp [mkBase, hm], fun hm => by simp [mkBase, hm], ?_, ?_⟩
  · intro f hf
    rcases fold_written hash ign dryRun (mkBase mode destination now) _ _ _ hfold f hf
      with hin | ⟨c, hc, hig, hout⟩
    · simp at hin
    · exact ⟨c, hc, hig, hout⟩
  · intro harch hdry
    subst hdry
    have hne : archiveType ≠ "none" := by
      rcases harch with rfl | rfl | rfl <;> decide
    have harc : mkArchive archiveType false now (mkBase mode destination now) st' =
        some ⟨mkBase mode destination now ++ ["backup_" ++ now ++ "." ++ archiveType],
              st'.written.map (fun f =>
                (relativeTo f (mkBase mode destination now), alookup f st'.dest))⟩ := by
      simp [mkArchive, hne]
    exact ⟨_, harc, rfl⟩

/-- Witness for C9: a concrete incremental zip run; the single copied file
lands under `<destination>/<timestamp>/<sourceDirName>/<relativePath>` and
the archive is `backup_t.zip` inside the base. -/
theorem C9_witness :
    backup_engine (fun _ => "d")
        (some [⟨["s"], some (.cons (.file "a" (some [1])) .nil)⟩])
        ["d"] "incremental" "zip" false "t" [] [] [] =
      .ok ⟨1, 0, 1, some ⟨["d", "t", "backup_t.zip"], [(some ["s", "a"], some [1])]⟩,
           [(["s", "a"], "d")], [(["d", "t", "s", "a"], [1])], [["d", "t", "s", "a"]]⟩ ∧
    ((mkBase "incremental" ["d"] "t" = ["d"] ++ ["t"]) ∧
     (∀ f ∈ [(["d", "t", "s", "a"] : Key)],
        ∃ c ∈ runTrace []
          (normalizeSources (some [⟨["s"], some (.cons (.file "a" (some [1])) .nil)⟩])),
        ignored c.name [] = false ∧
        f = mkBase "incremental" ["d"] "t" ++ [c.srcName] ++ c.relDir ++ [c.name]) ∧
     ∃ a, (some (⟨["d", "t", "backup_t.zip"], [(some ["s", "a"], some [1])]⟩ : ArchiveFile)) = some a ∧
       a.path = mkBase "incremental" ["d"] "t" ++ ["backup_" ++ "t" ++ "." ++ "zip"]) := by
  have h := C9_layout_and_archive_naming (fun _ => "d")
    (some [⟨["s"], some (.cons (.file "a" (some [1])) .nil)⟩])
    ["d"] "incremental" "zip" false "t" [] [] []
    ⟨1, 0, 1, some ⟨["d", "t", "backup_t.zip"], [(some ["s", "a"], some [1])]⟩,
     [(["s", "a"], "d")], [(["d", "t", "s", "a"], [1])], [["d", "t", "s", "a"]]⟩
    rfl
  exact ⟨rfl, h.1 rfl, h.2.2.1, h.2.2.2 (Or.inl rfl) rfl⟩

/-- Claim C5 counterexample: the source file `/b/s/f` has a stored record
matching its current content and its output `d/s/f` is missing at run
start, while `/a/s/f` has no record (so it cannot be the skipped file) —
yet the run reports `copied = 1, skipped = 1`: the first file's copy
re-creates `d/s/f`, so the second file's `out.exists()` test passes and it
is counted as skipped, not copied, refuting the claim. -/
theorem C5_counterexample :
    alookup ["b", "s", "f"] [((["b", "s", "f"] : Key), "d")] =
      some ((fun (_ : Content) => "d") [1]) ∧
    alookup ["d", "s", "f"] ([] : DestFS) = none ∧
    alookup ["a", "s", "f"] [((["b", "s", "f"] : Key), "d")] = none ∧
    (backup_engine (fun _ => "d")
        (some [⟨["a", "s"], some (.cons (.file "f" (some [1])) .nil)⟩,
               ⟨["b", "s"], some (.cons (.file "f" (some [1])) .nil)⟩])
        ["d"] "flat" "none" false "t" [(["b", "s", "f"], "d")] [] []).toOption.map
      (fun r => (r.copied, r.skipped)) = some (1, 1) :=
  ⟨rfl, rfl, rfl, by decide⟩

/-- Claim C5 (amended, self-healing): for every file a run encounters whose
stored fingerprint record matches its current content fingerprint and whose
output file is missing at the computed output path — and stays missing
until the engine reaches the file, i.e. no earlier non-ignored file of the
run writes that same output path (and none shares the file's store key) —
the run copies the file again: its output path is appended to
`written_files`, `copied` counts it (`copied = written_files.length ≥ 1`),
and on a non-dry run the file's bytes are present at the output path at the
end of the run when no later file shares that output path either.  Without
the no-collision proviso the claim fails, as the counterexample shows. -/
theorem C5_self_healing (hash : Content → String)
    (sources : Option (List Source)) (destination : Key)
    (mode archiveType : String) (dryRun : Bool) (now : String)
    (state₀ : State) (ign : List String) (dest₀ : DestFS) (r : BackupResult)
    (c : FileCtx) (cc : Content) (l₁ l₂ : List FileCtx)
    (hok : backup_engine hash sources destination mode archiveType dryRun now
      state₀ ign dest₀ = .ok r)
    (hsplit : runTrace ign (normalizeSources sources) = l₁ ++ c :: l₂)
    (hig : ignored c.name ign = false)
    (hread : c.read = some cc)
    (hmatch : alookup (keyOf c) state₀ = some (hash cc))
    (hmiss : alookup (outOf (mkBase mode destination now) c) dest₀ = none)
    (hkeys : ∀ c' ∈ l₁, ignored c'.name ign = false → keyOf c' ≠ keyOf c)
    (houts₁ : ∀ c' ∈ l₁, ignored c'.name ign = false →
      outOf (mkBase mode destination now) c' ≠ outOf (mkBase mode destination now) c)
    (houts₂ : ∀ c' ∈ l₂, ignored c'.name ign = false →
      outOf (mkBase mode destination now) c' ≠ outOf (mkBase mode destination now) c) :
    outOf (mkBase mode destination now) c ∈ r.written ∧
    r.copied = r.written.length ∧ 1 ≤ r.copied ∧
    (dryRun = false →
      alookup (outOf (mkBase mode destination now) c) r.dest = some cc) := by
  obtain ⟨st', hfold, rfl⟩ :=
    (backup_engine_ok_iff hash sources destination mode archiveType dryRun now
      state₀ ign dest₀ _).mp hok
  have hlen : st'.copied = st'.written.length :=
    fold_copied_written_len hash ign dryRun (mkBase mode destination now) _ _ _
      hfold rfl
  rw [hsplit] at hfold
  obtain ⟨st₁, hfold₁, hfoldc⟩ := foldE_append_ok _ _ _ _ _ hfold
  obtain ⟨st₂, hstep, hfold₂⟩ := foldE_ok_elim _ _ _ _ _ hfoldc
  have hm₁ : alookup (keyOf c) st₁.state = some (hash cc) := by
    rw [fold_state_other hash ign dryRun (mkBase mode destination now) l₁
      (keyOf c) hkeys _ _ hfold₁]
    exact hmatch
  have hd₁ : alookup (outOf (mkBase mode destination now) c) st₁.dest = none := by
    rw [fold_dest_other hash ign dryRun (mkBase mode destination now) l₁ _
      houts₁ _ _ hfold₁]
    exact hmiss
  rcases processFile_cases hash ign dryRun (mkBase mode destination now) st₁ c with
    ⟨hig', heq⟩ | ⟨hig', hrd', heq⟩ | ⟨cc', hig', hrd', ⟨h1, h2, heq⟩ | ⟨hcnd, heq⟩⟩
  · rw [hig'] at hig; cases hig
  · rw [hrd'] at hread; cases hread
  · rw [hd₁] at h2; simp at h2
  · rw [hrd'] at hread
    cases hread
    rw [heq] at hstep; cases hstep
    refine ⟨?_, hlen, ?_, ?_⟩
    · show outOf (mkBase mode destination now) c ∈ st'.written
      refine fold_written_mono hash ign dryRun (mkBase mode destination now)
        l₂ _ st' hfold₂ _ ?_
      exact List.mem_append_right _ (List.mem_singleton.mpr rfl)
    · have hmono := fold_copied_mono hash ign dryRun (mkBase mode destination now)
        l₂ _ st' hfold₂
      show 1 ≤ st'.copied
      simp only at hmono
      omega
    · intro hdry
      subst hdry
      have hd₂ := fold_dest_other hash ign false (mkBase mode destination now)
        l₂ _ houts₂ _ st' hfold₂
      show alookup (outOf (mkBase mode destination now) c) st'.dest = some cc
      rw [hd₂]
      show alookup (outOf (mkBase mode destination now) c)
        (ainsert st₁.dest (outOf (mkBase mode destination now) c) cc) = some cc
      exact alookup_ainsert_self ..

/-- Witness for C5 (amended): a concrete flat run over files `a` then `b`,
where `b` has a matching record and a missing output not shared with `a` —
`b` is copied again and its bytes are back on the destination. -/
theorem C5_witness :
    backup_engine (fun _ => "d")
        (some [⟨["s"], some (.cons (.file "a" (some [1]))
          (.cons (.file "b" (some [2])) .nil))⟩])
        ["d"] "flat" "none" false "t" [(["s", "b"], "d")] [] [] =
      .ok ⟨2, 0, 2, none, [(["s", "b"], "d"), (["s", "a"], "d"), (["s", "b"], "d")],
           [(["d", "s", "b"], [2]), (["d", "s", "a"], [1])],
           [["d", "s", "a"], ["d", "s", "b"]]⟩ ∧
    alookup (keyOf ⟨["s"], "s", [], "b", some [2]⟩) [((["s", "b"] : Key), "d")] =
      some "d" ∧
    alookup (outOf (mkBase "flat" ["d"] "t") ⟨["s"], "s", [], "b", some [2]⟩)
      ([] : DestFS) = none ∧
    (outOf (mkBase "flat" ["d"] "t") ⟨["s"], "s", [], "b", some [2]⟩ ∈
      (⟨2, 0, 2, none, [(["s", "b"], "d"), (["s", "a"], "d"), (["s", "b"], "d")],
        [(["d", "s", "b"], [2]), (["d", "s", "a"], [1])],
        [["d", "s", "a"], ["d", "s", "b"]]⟩ : BackupResult).written ∧
     (⟨2, 0, 2, none, [(["s", "b"], "d"), (["s", "a"], "d"), (["s", "b"], "d")],
        [(["d", "s", "b"], [2]), (["d", "s", "a"], [1])],
        [["d", "s", "a"], ["d", "s", "b"]]⟩ : BackupResult).copied =
       (⟨2, 0, 2, none, [(["s", "b"], "d"), (["s", "a"], "d"), (["s", "b"], "d")],
        [(["d", "s", "b"], [2]), (["d", "s", "a"], [1])],
        [["d", "s", "a"], ["d", "s", "b"]]⟩ : BackupResult).written.length ∧
     1 ≤ (⟨2, 0, 2, none, [(["s", "b"], "d"), (["s", "a"], "d"), (["s", "b"], "d")],
        [(["d", "s", "b"], [2]), (["d", "s", "a"], [1])],
        [["d", "s", "a"], ["d", "s", "b"]]⟩ : BackupResult).copied ∧
     (false = false →
       alookup (outOf (mkBase "flat" ["d"] "t") ⟨["s"], "s", [], "b", some [2]⟩)
         (⟨2, 0, 2, none, [(["s", "b"], "d"), (["s", "a"], "d"), (["s", "b"], "d")],
          [(["d", "s", "b"], [2]), (["d", "s", "a"], [1])],
          [["d", "s", "a"], ["d", "s", "b"]]⟩ : BackupResult).dest = some [2])) :=
  ⟨rfl, rfl, rfl,
   C5_self_healing (fun _ => "d")
     (some [⟨["s"], some (.cons (.file "a" (some [1]))
       (.cons (.file "b" (some [2])) .nil))⟩])
     ["d"] "flat" "none" false "t" [(["s", "b"], "d")] [] []
     ⟨2, 0, 2, none, [(["s", "b"], "d"), (["s", "a"], "d"), (["s", "b"], "d")],
      [(["d", "s", "b"], [2]), (["d", "s", "a"], [1])],
      [["d", "s", "a"], ["d", "s", "b"]]⟩
     ⟨["s"], "s", [], "b", some [2]⟩ [2]
     [⟨["s"], "s", [], "a", some [1]⟩] []
     rfl rfl rfl rfl rfl rfl (by decide) (by decide) (by decide)⟩

/-- Claim C1 counterexample: (a) a dry run rewrites the persisted
fingerprint store — an initially empty store file ends up holding a record
added during the dry run; (b) the dry-run counts can differ from a non-dry
run over the same inputs: with two sources of the same directory name whose
files map to one output path, the dry run reports 2 copied / 0 skipped,
while the real run reports 1 copied / 1 skipped (its first copy makes the
second file's skip test see an existing output). -/
theorem C1_counterexample :
    (runAndPersist (some []) (fun _ => "d")
        (some [⟨["s"], some (.cons (.file "a" (some [1])) .nil)⟩])
        ["d"] "flat" "none" true "t" [] []).1 ≠ some [] ∧
    (backup_engine (fun _ => "d")
        (some [⟨["a", "s"], some (.cons (.file "f" (some [1])) .nil)⟩,
               ⟨["b", "s"], some (.cons (.file "f" (some [1])) .nil)⟩])
        ["d"] "flat" "none" true "t" [(["b", "s", "f"], "d")] [] []).toOption.map
      (fun r => (r.copied, r.skipped)) ≠
    (backup_engine (fun _ => "d")
        (some [⟨["a", "s"], some (.cons (.file "f" (some [1])) .nil)⟩,
               ⟨["b", "s"], some (.cons (.file "f" (some [1])) .nil)⟩])
        ["d"] "flat" "none" false "t" [(["b", "s", "f"], "d")] [] []).toOption.map
      (fun r => (r.copied, r.skipped)) := by
  constructor <;> decide

/-- Claim C1 (amended): a completed dry run writes no file content under
the destination (the destination's file contents are exactly as before;
directories may still be created) and never creates an archive; but,
contrary to the claim, the run ends by rewriting the persisted fingerprint
store with the state as updated during the dry run, and the reported counts
are those of the dry traversal, which can differ from a non-dry run's when
two files map to one output path. -/
theorem C1_dry_run (prev : Option State) (hash : Content → String)
    (sources : Option (List Source)) (destination : Key)
    (mode archiveType : String) (now : String) (ign : List String)
    (dest₀ : DestFS) (r : BackupResult)
    (hok : backup_engine hash sources destination mode archiveType true now
      (prev.getD []) ign dest₀ = .ok r) :
    r.dest = dest₀ ∧ r.archive = none ∧
    (runAndPersist prev hash sources destination mode archiveType true now
      ign dest₀).1 = some r.savedState := by
  refine ⟨?_, ?_, ?_⟩
  · obtain ⟨st', hfold, rfl⟩ :=
      (backup_engine_ok_iff hash sources destination mode archiveType true now
        (prev.getD []) ign dest₀ _).mp hok
    show st'.dest = dest₀
    exact fold_dest_dry hash ign (mkBase mode destination now) _ _ _ hfold
  · obtain ⟨st', hfold, rfl⟩ :=
      (backup_engine_ok_iff hash sources destination mode archiveType true now
        (prev.getD []) ign dest₀ _).mp hok
    show mkArchive archiveType true now (mkBase mode destination now) st' = none
    simp [mkArchive]
  · simp [runAndPersist, hok]

/-- Witness for C1 (amended): a concrete completed dry run leaves the
destination contents unchanged, makes no archive, and persists the state
updated during the dry run. -/
theorem C1_witness :
    backup_engine (fun _ => "d")
        (some [⟨["s"], some (.cons (.file "a" (some [1])) .nil)⟩])
        ["d"] "flat" "zip" true "t" ((some ([] : State)).getD []) [] [(["x"], [7])] =
      .ok ⟨1, 0, 1, none, [(["s", "a"], "d")], [(["x"], [7])], [["d", "s", "a"]]⟩ ∧
    ((⟨1, 0, 1, none, [(["s", "a"], "d")], [(["x"], [7])], [["d", "s", "a"]]⟩ :
        BackupResult).dest = [(["x"], [7])] ∧
     (⟨1, 0, 1, none, [(["s", "a"], "d")], [(["x"], [7])], [["d", "s", "a"]]⟩ :
        BackupResult).archive = none ∧
     (runAndPersist (some []) (fun _ => "d")
        (some [⟨["s"], some (.cons (.file "a" (some [1])) .nil)⟩])
        ["d"] "flat" "zip" true "t" [] [(["x"], [7])]).1 =
       some (⟨1, 0, 1, none, [(["s", "a"], "d")], [(["x"], [7])], [["d", "s", "a"]]⟩ :
        BackupResult).savedState) :=
  ⟨rfl,
   C1_dry_run (some []) (fun _ => "d")
     (some [⟨["s"], some (.cons (.file "a" (some [1])) .nil)⟩])
     ["d"] "flat" "zip" "t" [] [(["x"], [7])]
     ⟨1, 0, 1, none, [(["s", "a"], "d")], [(["x"], [7])], [["d", "s", "a"]]⟩ rfl⟩

/-- Claim C6 counterexample: a successful dry run adds a fingerprint
record — starting from an empty store, after a dry run over one new file
the saved store holds a record for that file's path, contradicting the
claim that a record is present only if a non-dry run copied the file. -/
theorem C6_counterexample :
    (backup_engine (fun _ => "d")
        (some [⟨["s"], some (.cons (.file "a" (some [1])) .nil)⟩])
        ["d"] "flat" "none" true "t" [] [] []).toOption.map
      (fun r => alookup ["s", "a"] r.savedState) = some (some "d") := by
  decide

/-- Claim C6 (amended): after any completed run — dry or not — the saved
fingerprint store holds a record for a key iff the key already had one
before the run, or it is the absolute path of a non-ignored file the run
encountered (copied, would-be copied, or skipped); in particular dry runs
do add records, contrary to the claim. -/
theorem C6_store_domain (hash : Content → String)
    (sources : Option (List Source)) (destination : Key)
    (mode archiveType : String) (dryRun : Bool) (now : String)
    (state₀ : State) (ign : List String) (dest₀ : DestFS) (r : BackupResult)
    (hok : backup_engine hash sources destination mode archiveType dryRun now
      state₀ ign dest₀ = .ok r) (k : Key) :
    (alookup k r.savedState).isSome = true ↔
      ((alookup k state₀).isSome = true ∨
        ∃ c ∈ runTrace ign (normalizeSources sources),
          ignored c.name ign = false ∧ keyOf c = k) := by
  obtain ⟨st', hfold, rfl⟩ :=
    (backup_engine_ok_iff hash sources destination mode archiveType dryRun now
      state₀ ign dest₀ _).mp hok
  show (alookup k st'.state).isSome = true ↔ _
  constructor
  · intro hk
    exact fold_state_dom hash ign dryRun (mkBase mode destination now) _ _ _
      hfold k hk
  · rintro (hk | ⟨c, hc, hig, rfl⟩)
    · exact fold_state_mono hash ign dryRun (mkBase mode destination now) _ _ _
        hfold k hk
    · exact fold_state_cover hash ign dryRun (mkBase mode destination now) _ _ _
        hfold c hc hig

/-- Witness for C6 (amended): in a concrete dry run from an empty store,
the saved store has a record for the encountered file's path. -/
theorem C6_witness :
    backup_engine (fun _ => "d")
        (some [⟨["s"], some (.cons (.file "a" (some [1])) .nil)⟩])
        ["d"] "flat" "none" true "t" [] [] [] =
      .ok ⟨1, 0, 1, none, [(["s", "a"], "d")], [], [["d", "s", "a"]]⟩ ∧
    ((alookup ["s", "a"]
        (⟨1, 0, 1, none, [(["s", "a"], "d")], [], [["d", "s", "a"]]⟩ :
          BackupResult).savedState).isSome = true ↔
      ((alookup (["s", "a"] : Key) ([] : State)).isSome = true ∨
        ∃ c ∈ runTrace []
          (normalizeSources (some [⟨["s"], some (.cons (.file "a" (some [1])) .nil)⟩])),
          ignored c.name [] = false ∧ keyOf c = ["s", "a"])) :=
  ⟨rfl,
   C6_store_domain (fun _ => "d")
     (some [⟨["s"], some (.cons (.file "a" (some [1])) .nil)⟩])
     ["d"] "flat" "none" true "t" [] [] []
     ⟨1, 0, 1, none, [(["s", "a"], "d")], [], [["d", "s", "a"]]⟩ rfl ["s", "a"]⟩

/-- Claim C7 counterexample: archive entry arcnames can contain `".."` —
with a source path whose final segment is `".."` (legal input: the engine
never normalizes it away), `src.name` is `".."` and the archive entry for
the copied file is stored under `../f`. -/
theorem C7_counterexample :
    (backup_engine (fun _ => "d")
        (some [⟨["a", ".."], some (.cons (.file "f" (some [1])) .nil)⟩])
        ["d"] "flat" "zip" false "t" [] [] []).toOption.map
      (fun r => r.archive.map (fun a => a.entries.map (fun e => e.1))) =
    some (some [some ["..", "f"]]) := by
  decide

/-- Claim C7 (amended): for a completed non-dry run with archive kind other
than `none`, the archive holds exactly one entry per `written_files`
element, in order, stored under the arcname `f.relative_to(base)` with the
bytes the destination filesystem holds for `f`; and provided no source
directory name, relative directory segment or file name the run encounters
equals `".."` (always true of names from a real directory listing, but a
source path argument may end in a `".."` segment), every arcname is a
nonempty relative path containing no `".."`, and its bytes exist on the
destination at archive time. -/
theorem C7_archive_contents (hash : Content → String)
    (sources : Option (List Source)) (destination : Key)
    (mode archiveType : String) (now : String)
    (state₀ : State) (ign : List String) (dest₀ : DestFS) (r : BackupResult)
    (hok : backup_engine hash sources destination mode archiveType false now
      state₀ ign dest₀ = .ok r)
    (harch : archiveType ≠ "none")
    (hwf : ∀ c ∈ runTrace ign (normalizeSources sources),
      c.srcName ≠ ".." ∧ ".." ∉ c.relDir ∧ c.name ≠ "..") :
    ∃ a, r.archive = some a ∧
      a.entries = r.written.map (fun f =>
        (relativeTo f (mkBase mode destination now), alookup f r.dest)) ∧
      ∀ f ∈ r.written, ∃ rel cc,
        relativeTo f (mkBase mode destination now) = some rel ∧
        rel ≠ [] ∧ ".." ∉ rel ∧ alookup f r.dest = some cc := by
  obtain ⟨st', hfold, rfl⟩ :=
    (backup_engine_ok_iff hash sources destination mode archiveType false now
      state₀ ign dest₀ _).mp hok
  have harc : mkArchive archiveType false now (mkBase mode destination now) st' =
      some ⟨mkBase mode destination now ++ ["backup_" ++ now ++ "." ++ archiveType],
            st'.written.map (fun f =>
              (relativeTo f (mkBase mode destination now), alookup f st'.dest))⟩ := by
    simp [mkArchive, harch]
  refine ⟨_, harc, rfl, ?_⟩
  intro f hf
  have hsome : (alookup f st'.dest).isSome = true :=
    fold_written_dest hash ign (mkBase mode destination now) _ _ _ hfold
      (by intro g hg; simp at hg) f hf
  obtain ⟨cc, hcc⟩ := Option.isSome_iff_exists.mp hsome
  rcases fold_written hash ign false (mkBase mode destination now) _ _ _ hfold f hf
    with hin | ⟨c, hc, hig, hout⟩
  · simp at hin
  · obtain ⟨h1, h2, h3⟩ := hwf c hc
    refine ⟨[c.srcName] ++ c.relDir ++ [c.name], cc, ?_, by simp, ?_, hcc⟩
    · rw [hout, show outOf (mkBase mode destination now) c =
          mkBase mode destination now ++ ([c.srcName] ++ c.relDir ++ [c.name])
        from by simp [outOf]]
      exact relativeTo_append ..
    · intro hmem
      rcases List.mem_append.mp hmem with hmem | hmem
      · rcases List.mem_append.mp hmem with hmem | hmem
        · exact h1 (List.mem_singleton.mp hmem).symm
        · exact h2 hmem
      · exact h3 (List.mem_singleton.mp hmem).symm

/-- Witness for C7 (amended): a concrete zip run with one nested file; the
single archive entry sits at `s/sub/y` with the copied bytes. -/
theorem C7_witness :
    backup_engine (fun _ => "d")
        (some [⟨["s"], some (.cons (.dir "sub" (.cons (.file "y" (some [3])) .nil)) .nil)⟩])
        ["d"] "flat" "zip" false "t" [] [] [] =
      .ok ⟨1, 0, 1, some ⟨["d", "backup_t.zip"], [(some ["s", "sub", "y"], some [3])]⟩,
           [(["s", "sub", "y"], "d")], [(["d", "s", "sub", "y"], [3])],
           [["d", "s", "sub", "y"]]⟩ ∧
    (∀ c ∈ runTrace []
        (normalizeSources (some [⟨["s"],
          some (.cons (.dir "sub" (.cons (.file "y" (some [3])) .nil)) .nil)⟩])),
      c.srcName ≠ ".." ∧ ".." ∉ c.relDir ∧ c.name ≠ "..") ∧
    ∃ a, (⟨1, 0, 1, some ⟨["d", "backup_t.zip"], [(some ["s", "sub", "y"], some [3])]⟩,
           [(["s", "sub", "y"], "d")], [(["d", "s", "sub", "y"], [3])],
           [["d", "s", "sub", "y"]]⟩ : BackupResult).archive = some a ∧
      a.entries = (⟨1, 0, 1, some ⟨["d", "backup_t.zip"], [(some ["s", "sub", "y"], some [3])]⟩,
           [(["s", "sub", "y"], "d")], [(["d", "s", "sub", "y"], [3])],
           [["d", "s", "sub", "y"]]⟩ : BackupResult).written.map (fun f =>
        (relativeTo f (mkBase "flat" ["d"] "t"),
         alookup f (⟨1, 0, 1, some ⟨["d", "backup_t.zip"], [(some ["s", "sub", "y"], some [3])]⟩,
           [(["s", "sub", "y"], "d")], [(["d", "s", "sub", "y"], [3])],
           [["d", "s", "sub", "y"]]⟩ : BackupResult).dest)) ∧
      ∀ f ∈ (⟨1, 0, 1, some ⟨["d", "backup_t.zip"], [(some ["s", "sub", "y"], some [3])]⟩,
           [(["s", "sub", "y"], "d")], [(["d", "s", "sub", "y"], [3])],
           [["d", "s", "sub", "y"]]⟩ : BackupResult).written, ∃ rel cc,
        relativeTo f (mkBase "flat" ["d"] "t") = some rel ∧
        rel ≠ [] ∧ ".." ∉ rel ∧
        alookup f (⟨1, 0, 1, some ⟨["d", "backup_t.zip"], [(some ["s", "sub", "y"], some [3])]⟩,
           [(["s", "sub", "y"], "d")], [(["d", "s", "sub", "y"], [3])],
           [["d", "s", "sub", "y"]]⟩ : BackupResult).dest = some cc :=
  ⟨rfl, by decide,
   C7_archive_contents (fun _ => "d")
     (some [⟨["s"], some (.cons (.dir "sub" (.cons (.file "y" (some [3])) .nil)) .nil)⟩])
     ["d"] "flat" "zip" "t" [] [] []
     ⟨1, 0, 1, some ⟨["d", "backup_t.zip"], [(some ["s", "sub", "y"], some [3])]⟩,
      [(["s", "sub", "y"], "d")], [(["d", "s", "sub", "y"], [3])],
      [["d", "s", "sub", "y"]]⟩ rfl (by decide) (by decide)⟩

/-- Claim C3 (idempotence): running backup twice in flat mode over the same
sources, ignore patterns and destination, with no change to any source
file's content between the runs (formally: any two encounters of the same
absolute path read the same bytes), yields `copied = 0` on the second run,
`skipped` equal to `total` minus the number of ignored files encountered,
and an unchanged `total`. -/
theorem C3_second_run_idempotent (hash : Content → String)
    (sources : Option (List Source)) (destination : Key)
    (archiveType₁ archiveType₂ : String) (now₁ now₂ : String)
    (state₀ : State) (ign : List String) (dest₀ : DestFS) (r₁ : BackupResult)
    (hcons : ∀ c1 ∈ runTrace ign (normalizeSources sources),
        ∀ c2 ∈ runTrace ign (normalizeSources sources),
          keyOf c1 = keyOf c2 → c1.read = c2.read)
    (h1 : backup_engine hash sources destination "flat" archiveType₁ false now₁
        state₀ ign dest₀ = .ok r₁) :
    ∃ r₂, backup_engine hash sources destination "flat" archiveType₂ false now₂
        r₁.savedState ign r₁.dest = .ok r₂ ∧
      r₂.copied = 0 ∧
      r₂.skipped + (runTrace ign (normalizeSources sources)).countP
          (fun c => ignored c.name ign) = r₂.total ∧
      r₂.total = r₁.total := by
  have hbase₁ : mkBase "flat" destination now₁ = destination := by simp [mkBase]
  have hbase₂ : mkBase "flat" destination now₂ = destination := by simp [mkBase]
  obtain ⟨st₁, hfold₁, rfl⟩ :=
    (backup_engine_ok_iff hash sources destination "flat" archiveType₁ false now₁
      state₀ ign dest₀ _).mp h1
  rw [hbase₁] at hfold₁
  obtain ⟨htot₁, _⟩ := fold_counts hash ign false destination _ _ _ hfold₁
  simp only at htot₁
  have hestab := fold_establish hash ign destination _ hcons _ _ hfold₁
  have hfold₂ := fold_skip_run hash ign false destination
    (runTrace ign (normalizeSources sources))
    ⟨0, 0, 0, st₁.state, st₁.dest, []⟩ (fun c hc hig => hestab c hc hig)
  have hcnt : (runTrace ign (normalizeSources sources)).countP
        (fun c => !ignored c.name ign) +
      (runTrace ign (normalizeSources sources)).countP
        (fun c => ignored c.name ign) =
      (runTrace ign (normalizeSources sources)).length :=
    countP_not_add_countP _ _
  refine ⟨_, (backup_engine_ok_iff hash sources destination "flat" archiveType₂
      false now₂ _ ign _ _).mpr ⟨_, by rw [hbase₂]; exact hfold₂, rfl⟩,
    rfl, ?_, ?_⟩
  · show (0 + (runTrace ign (normalizeSources sources)).countP
        (fun c => !ignored c.name ign)) + _ = 0 + (runTrace ign (normalizeSources sources)).length
    omega
  · show 0 + (runTrace ign (normalizeSources sources)).length = st₁.total
    omega

/-- Witness for C3: a concrete pair of flat runs over one source with a
normal file and an ignored one; the second run copies nothing and skips the
one non-ignored file. -/
theorem C3_witness :
    (∀ c1 ∈ runTrace ["*.log"]
        (normalizeSources (some [⟨["s"],
          some (.cons (.file "a" (some [1])) (.cons (.file "b.log" (some [2])) .nil))⟩])),
      ∀ c2 ∈ runTrace ["*.log"]
        (normalizeSources (some [⟨["s"],
          some (.cons (.file "a" (some [1])) (.cons (.file "b.log" (some [2])) .nil))⟩])),
      keyOf c1 = keyOf c2 → c1.read = c2.read) ∧
    backup_engine (fun _ => "d")
        (some [⟨["s"],
          some (.cons (.file "a" (some [1])) (.cons (.file "b.log" (some [2])) .nil))⟩])
        ["d"] "flat" "none" false "t1" [] ["*.log"] [] =
      .ok ⟨1, 0, 2, none, [(["s", "a"], "d")], [(["d", "s", "a"], [1])], [["d", "s", "a"]]⟩ ∧
    ∃ r₂, backup_engine (fun _ => "d")
        (some [⟨["s"],
          some (.cons (.file "a" (some [1])) (.cons (.file "b.log" (some [2])) .nil))⟩])
        ["d"] "flat" "none" false "t2"
        (⟨1, 0, 2, none, [(["s", "a"], "d")], [(["d", "s", "a"], [1])], [["d", "s", "a"]]⟩ :
          BackupResult).savedState ["*.log"]
        (⟨1, 0, 2, none, [(["s", "a"], "d")], [(["d", "s", "a"], [1])], [["d", "s", "a"]]⟩ :
          BackupResult).dest = .ok r₂ ∧
      r₂.copied = 0 ∧
      r₂.skipped + (runTrace ["*.log"]
        (normalizeSources (some [⟨["s"],
          some (.cons (.file "a" (some [1])) (.cons (.file "b.log" (some [2])) .nil))⟩]))).countP
          (fun c => ignored c.name ["*.log"]) = r₂.total ∧
      r₂.total = (⟨1, 0, 2, none, [(["s", "a"], "d")], [(["d", "s", "a"], [1])],
        [["d", "s", "a"]]⟩ : BackupResult).total :=
  ⟨by decide, rfl,
   C3_second_run_idempotent (fun _ => "d")
     (some [⟨["s"],
       some (.cons (.file "a" (some [1])) (.cons (.file "b.log" (some [2])) .nil))⟩])
     ["d"] "none" "none" "t1" "t2" [] ["*.log"] []
     ⟨1, 0, 2, none, [(["s", "a"], "d")], [(["d", "s", "a"], [1])], [["d", "s", "a"]]⟩
     (by decide) rfl⟩

/-- Witness for C4: a concrete run over one normal and one ignored file —
`total` is 2, `copied + skipped` counts only the non-ignored file, and the
only written path belongs to it. -/
theorem C4_witness :
    backup_engine (fun _ => "d")
        (some [⟨["s"],
          some (.cons (.file "a" (some [1])) (.cons (.file "b.log" (some [2])) .nil))⟩])
        ["d"] "flat" "none" false "t" [] ["*.log"] [] =
      .ok ⟨1, 0, 2, none, [(["s", "a"], "d")], [(["d", "s", "a"], [1])], [["d", "s", "a"]]⟩ ∧
    ((⟨1, 0, 2, none, [(["s", "a"], "d")], [(["d", "s", "a"], [1])], [["d", "s", "a"]]⟩ :
        BackupResult).total =
      (runTrace ["*.log"] (normalizeSources (some [⟨["s"],
        some (.cons (.file "a" (some [1])) (.cons (.file "b.log" (some [2])) .nil))⟩]))).length ∧
     (⟨1, 0, 2, none, [(["s", "a"], "d")], [(["d", "s", "a"], [1])], [["d", "s", "a"]]⟩ :
        BackupResult).copied +
       (⟨1, 0, 2, none, [(["s", "a"], "d")], [(["d", "s", "a"], [1])], [["d", "s", "a"]]⟩ :
        BackupResult).skipped =
      (runTrace ["*.log"] (normalizeSources (some [⟨["s"],
        some (.cons (.file "a" (some [1])) (.cons (.file "b.log" (some [2])) .nil))⟩]))).countP
        (fun c => !ignored c.name ["*.log"]) ∧
     ∀ f ∈ (⟨1, 0, 2, none, [(["s", "a"], "d")], [(["d", "s", "a"], [1])],
        [["d", "s", "a"]]⟩ : BackupResult).written,
      ∃ c ∈ runTrace ["*.log"] (normalizeSources (some [⟨["s"],
        some (.cons (.file "a" (some [1])) (.cons (.file "b.log" (some [2])) .nil))⟩])),
        ignored c.name ["*.log"] = false ∧ f = outOf (mkBase "flat" ["d"] "t") c) :=
  ⟨rfl,
   C4_ignored_files (fun _ => "d")
     (some [⟨["s"],
       some (.cons (.file "a" (some [1])) (.cons (.file "b.log" (some [2])) .nil))⟩])
     ["d"] "flat" "none" false "t" [] ["*.log"] []
     ⟨1, 0, 2, none, [(["s", "a"], "d")], [(["d", "s", "a"], [1])], [["d", "s", "a"]]⟩ rfl⟩

/-- Witness for C10: the counting invariants at a concrete run, plus the
zero-result for an empty source list. -/
theorem C10_witness :
    backup_engine (fun _ => "d") (some []) ["d"] "flat" "none" false "t" [] [] [] =
      .ok ⟨0, 0, 0, none, [], [], []⟩ ∧
    ((⟨0, 0, 0, none, [], [], []⟩ : BackupResult).copied +
        (⟨0, 0, 0, none, [], [], []⟩ : BackupResult).skipped ≤
      (⟨0, 0, 0, none, [], [], []⟩ : BackupResult).total ∧
     (⟨0, 0, 0, none, [], [], []⟩ : BackupResult).total =
      (runTrace [] (normalizeSources (some ([] : List Source)))).length ∧
     (⟨0, 0, 0, none, [], [], []⟩ : BackupResult).copied +
        (⟨0, 0, 0, none, [], [], []⟩ : BackupResult).skipped =
      (runTrace [] (normalizeSources (some ([] : List Source)))).countP
        (fun c => !ignored c.name []) ∧
     ((some ([] : List Source) = none ∨ some ([] : List Source) = some [] ∨
        ∀ s ∈ normalizeSources (some ([] : List Source)), s.tree = none) →
      (⟨0, 0, 0, none, [], [], []⟩ : BackupResult).copied = 0 ∧
      (⟨0, 0, 0, none, [], [], []⟩ : BackupResult).skipped = 0 ∧
      (⟨0, 0, 0, none, [], [], []⟩ : BackupResult).total = 0)) :=
  ⟨rfl,
   C10_count_invariants (fun _ => "d") (some []) ["d"] "flat" "none" false "t"
     [] [] [] ⟨0, 0, 0, none, [], [], []⟩ rfl⟩

end PinokioBackup
